import Mathlib

/-!
Shallow embedding of the BFTRaft.go core: the server-side peer directory and
replication path (src/unnamed/part_000), the client-side membership resolver
and command executor (src/unnamed/part_001), and the bootstrap helper
(src/utils/alpha.go). Machine integers of the source are modelled as `Nat`
(no arithmetic in the embedded fragment overflows), byte strings as
`List Nat`, fallible operations as `Option`/`Except`, and external
collaborators (KV store, RPC transport, hashing, protobuf decoding) as
explicit function parameters. Library functions of the repository that are
not part of the staged sources (`MajorityResponse`, `ExpectedPlayers`,
`PickMajority`, `NodesSignData`, `AppendLogEntrySignData`) are modelled from
the specification's words and say so in their doc comments.
-/

/-- A log entry as consumed by the replication path: `pb.LogEntry`'s `Index`
and `Term` fields (the command payload plays no role in the embedded code). -/
structure LogEntry where
  index : Nat
  term : Nat
  deriving DecidableEq, Repr

/-- A peer record: `pb.Peer`'s fields used by the embedded code. -/
structure Peer where
  id : Nat
  group : Nat
  host : Nat
  nextIndex : Nat
  deriving DecidableEq, Repr

/-- The zero value of `pb.Peer`, as Go initializes `peer := pb.Peer{}`. -/
def zeroPeer : Peer := ⟨0, 0, 0, 0⟩

/-- A node / host record: identifier and server address. -/
structure Host where
  id : Nat
  serverAddr : String
  deriving DecidableEq, Repr

/-- A raft group: `pb.RaftGroup`'s `Id` and `Term` fields. -/
structure RaftGroup where
  id : Nat
  term : Nat
  deriving DecidableEq, Repr

/-- The loop of `PeerUncommittedLogEntries` (part_000 lines 59-69) over the
reversed (descending-index) log iterator, here given as the list the iterator
will yield. `prev` threads the source's `prevEntry` variable: it is set to
the entry just taken BEFORE the `entry.Index < nextLogIdx` test, so on
iterator exhaustion it holds the last entry yielded, not the sentinel. -/
def pucLoop (k : Nat) : LogEntry → List LogEntry → List LogEntry × LogEntry
  | prev, [] => ([], prev)
  | _, e :: rest =>
    if e.index < k then ([], e)
    else
      let r := pucLoop k e rest
      (e :: r.1, r.2)

/-- Shallow embedding of `PeerUncommittedLogEntries` (part_000 lines 51-76):
`log` is the group's log in ascending index order, so `log.reverse` is what
`ReversedLogIterator` yields; `k` is the peer's `NextIndex`. The collected
entries are reversed at the end (lines 70-74) so the least index comes
first. -/
def PeerUncommittedLogEntries (log : List LogEntry) (k : Nat) :
    List LogEntry × LogEntry :=
  ((pucLoop k ⟨0, 0⟩ log.reverse).1.reverse, (pucLoop k ⟨0, 0⟩ log.reverse).2)

/-- A log that is finite, strictly ascending and dense from index 1, entry
`i + 1` carrying term `t i`: the log shape the claim quantifies over. -/
def denseLog (t : Nat → Nat) (n : Nat) : List LogEntry :=
  (List.range n).map (fun i => ⟨i + 1, t i⟩)

/-- Modelled from the spec: `expectedPlayers(n)` is the minimum number of
matching replica results required for acceptance, the BFT quorum size
over `n` hosts (spec section 4.10 step 6 and the glossary). -/
def ExpectedPlayers (n : Nat) : Nat := 2 * n / 3 + 1

/-- The fold of the plurality pick over the remaining hashes: `best` is the
current front-runner, counts are taken in the full collected list `l`. -/
def pickLoop (l : List Nat) : List Nat → Nat → Nat
  | [], best => best
  | c :: rest, best =>
    pickLoop l rest (if l.count best < l.count c then c else best)

/-- Modelled from the spec: `PickMajority` chooses a hash with the greatest
occurrence count among those collected — a strict plurality when one exists,
and any plurality value otherwise (spec section 4.10 step 7 and section 8,
end-to-end scenario 3, which records that the source returns a plurality
value even when no strict majority exists). -/
def PickMajority (xs : List Nat) : Nat :=
  match xs with
  | [] => 0
  | x :: rest => pickLoop (x :: rest) (x :: rest) x

/-- The `responseReceived` map of `ExecCommand` (part_001 lines 166, 173-176):
Go writes `responseReceived[hash] = res` for each collected response in
delivery order, so looking a hash up yields the LAST collected response
bearing it; a hash never written yields Go's zero value `nil`, modelled
as `[]`. -/
def responseFor (hash : List Nat → Nat) (collected : List (List Nat))
    (h : Nat) : List Nat :=
  collected.foldl (fun acc r => if hash r = h then r else acc) []

/-- A concrete stand-in for `utils.HashData` used when evaluating the model
at explicit inputs: the sum of the bytes. -/
def sumHash (r : List Nat) : Nat := r.foldl (fun a b => a + b) 0

/-- Externally visible submissions of the client command executor. -/
inductive ClientEvent
  | sentToLeader
  deriving DecidableEq, Repr

/-- Shallow embedding of the client `ExecCommand` (part_001 lines 127-192).
`leaderFound` models `GetGroupLeader` returning non-nil; `hostsFound` models
`GetGroupHosts`; `arrivals` are the replica results delivered to the
request's inbox channel within the 10-second window, in delivery order (the
`select` at lines 184-191 succeeds exactly when `expectedResponse` of them
arrive in time). The second component is the trace of submissions: the
goroutine pushing the signed command to the leader (lines 150-160) is
spawned right after the leader check and BEFORE the group-host lookup, so
`sentToLeader` is emitted on every path past the leader check, the
`NoHosts` error path included. -/
def ExecCommand (hash : List Nat → Nat) (leaderFound : Bool)
    (hostsFound : Option (List Host)) (arrivals : List (List Nat)) :
    Except String (List Nat) × List ClientEvent :=
  if leaderFound then
    match hostsFound with
    | none => (.error "cannot get group hosts", [ClientEvent.sentToLeader])
    | some hosts =>
      if arrivals.length < ExpectedPlayers hosts.length then
        (.error "does not receive enough response", [ClientEvent.sentToLeader])
      else
        (.ok (responseFor hash (arrivals.take (ExpectedPlayers hosts.length))
          (PickMajority ((arrivals.take (ExpectedPlayers hosts.length)).map hash))),
         [ClientEvent.sentToLeader])
  else (.error "cannot found leader", [])

/-- Modelled from the spec: `majorityResponse` (spec section 4.8). Each
client of `clients` is queried for a `(value, canonicalBytes)` pair; empty
canonical bytes denote failure / abstention and contribute to no tally; a
value is returned only when its canonical bytes are byte-identical across a
strict majority (more than half) of the polled clients, else none. -/
def MajorityResponse {C V : Type} (clients : List C)
    (q : C → Option V × List Nat) : Option V :=
  match (clients.map q).find? (fun r =>
      decide (r.2 ≠ []) &&
      decide ((clients.map q).length <
        2 * ((clients.map q).filter (fun r2 => decide (r2.2 = r.2))).length)) with
  | some r => r.1
  | none => none

/-- Shallow embedding of the client `GetGroupHosts` (part_001 lines 54-77).
`cache` maps a group id to its cached host list (`brc.GroupHosts`);
`alphaClients` models `brc.AlphaRPCs.Get()` and `hostsQuery` the RPC closure
(a failed `GroupHosts` RPC answers `(none, [])`, lines 64-67). Returns the
source's return value and the cache after the call. -/
def GetGroupHosts (alphaClients : List Nat)
    (hostsQuery : Nat → Option (List Host) × List Nat)
    (cache : Nat → Option (List Host)) (groupId : Nat) :
    Option (List Host) × (Nat → Option (List Host)) :=
  match cache groupId with
  | some v => (some v, cache)
  | none =>
    match MajorityResponse alphaClients hostsQuery with
    | some hosts =>
      (some hosts, fun g => if g = groupId then some hosts else cache g)
    | none => (none, cache)

/-- Shallow embedding of the client `GetGroupLeader` (part_001 lines 79-111).
The quorum query agrees on the leader host (canonical bytes: its
`ServerAddr`); on agreement the source opens a cluster RPC client to that
address (`utils.GetClusterRPC`, modelled by `connect`) and caches it; when
the quorum fails, or the connection errors, it returns nil and leaves the
cache untouched. -/
def GetGroupLeader (alphaClients : List Nat)
    (leaderQuery : Nat → Option Host × List Nat)
    (connect : String → Option Nat)
    (cache : Nat → Option Nat) (groupId : Nat) :
    Option Nat × (Nat → Option Nat) :=
  match cache groupId with
  | some c => (some c, cache)
  | none =>
    match MajorityResponse alphaClients leaderQuery with
    | some leaderHost =>
      match connect leaderHost.serverAddr with
      | some leader =>
        (some leader, fun g => if g = groupId then some leader else cache g)
      | none => (none, cache)
    | none => (none, cache)

/-- Shallow embedding of the client `GroupExists` (part_001 lines 113-125).
The source ends with the unchecked Go type assertion `return res.(bool)`:
when the quorum query returns nil (no strict majority) that assertion
PANICS at runtime; the panic outcome is modelled as `none`, a returned
boolean `b` as `some b`. -/
def GroupExists (alphaClients : List Nat)
    (q : Nat → Option Bool × List Nat) : Option Bool :=
  MajorityResponse alphaClients q

/-- Modelled from the spec: `nodesSignData` is a deterministic canonical
byte form of a host list (spec section 6, signing payloads); it is never
empty, so a successful response is never mistaken for an abstention. -/
def NodesSignData (nodes : List Host) : List Nat :=
  nodes.foldr (fun h acc => h.id :: (h.serverAddr.toList.map Char.toNat) ++ acc) [1]

/-- The query closure `AlphaNodes` hands to the quorum query (alpha.go lines
16-25): a successful `GroupHosts` RPC contributes the node list with its
canonical sign data; a failed RPC contributes a nil value with EMPTY
canonical bytes, an abstention. -/
def alphaQuery (rpc : Nat → Option (List Host)) (c : Nat) :
    Option (List Host) × List Nat :=
  match rpc c with
  | some nodes => (some nodes, NodesSignData nodes)
  | none => (none, [])

/-- Shallow embedding of `AlphaNodes` (src/utils/alpha.go lines 9-31):
`connect` models `GetClusterRPC`; addresses whose client creation fails are
silently dropped (lines 11-15), so the quorum query runs over the connected
subset only. -/
def AlphaNodes (servers : List String) (connect : String → Option Nat)
    (rpc : Nat → Option (List Host)) : Option (List Host) :=
  MajorityResponse (servers.filterMap connect) (alphaQuery rpc)

/-- Modelled from the spec: `appendLogEntrySignData(groupId, term,
prevLogIndex, prevLogTerm)` is a canonical serialization of the four fields
(spec section 6, signing payloads); modelled as the list of the four
numbers. -/
def AppendLogEntrySignData (groupId term prevIndex prevTerm : Nat) : List Nat :=
  [groupId, term, prevIndex, prevTerm]

/-- The `AppendEntriesRequest` the replication dispatcher builds
(part_000 lines 87-96). -/
structure AppendEntriesRequest where
  group : Nat
  term : Nat
  leaderId : Nat
  prevLogIndex : Nat
  prevLogTerm : Nat
  signature : List Nat
  quorumVotes : List Nat
  entries : List LogEntry
  deriving DecidableEq, Repr

/-- Shallow embedding of `SendPeerUncommittedLogEntries` (part_000 lines
78-99). `node` models `s.GetNode(peer.Host)`; `clientGetFailed` models
`err != nil` for `s.ClusterClients.Get(node.ServerAddr)`. The source spawns
the asynchronous AppendEntries dispatch inside `if ... err != nil { ... }`
(line 83), i.e. exactly when the client-pool lookup FAILED; the embedding
reproduces that gating faithfully. The result is the dispatched request, or
`none` when no RPC is issued. -/
def SendPeerUncommittedLogEntries (selfId : Nat) (sign : List Nat → List Nat)
    (log : List LogEntry) (group : RaftGroup) (peerNextIndex : Nat)
    (node : Option Host) (clientGetFailed : Bool) :
    Option AppendEntriesRequest :=
  match node with
  | none => none
  | some _ =>
    if clientGetFailed then
      match PeerUncommittedLogEntries log peerNextIndex with
      | (entries, prevEntry) =>
        some ⟨group.id, group.term, selfId, prevEntry.index, prevEntry.term,
          sign (AppendLogEntrySignData group.id group.term
            prevEntry.index prevEntry.term),
          [], entries⟩
    else none

/-- Shallow embedding of `GetPeer` (part_000 lines 31-49). `cached` is the
cache entry for `(group, peerId)`; `row` the KV value at the peer's key;
`unmarshal` models `proto.Unmarshal` writing into the zero-initialized
`pb.Peer{}` and returning a success flag. The source IGNORES that flag
(line 45): whenever the row is present it caches and returns whatever
struct the decoder left, even on a failed deserialization. The result pairs
the returned value with the cache entry after the call. -/
def GetPeer (cached : Option Peer) (row : Option (List Nat))
    (unmarshal : List Nat → Peer × Bool) : Option Peer × Option Peer :=
  match cached with
  | some p => (some p, some p)
  | none =>
    match row with
    | none => (none, none)
    | some data => (some (unmarshal data).1, some (unmarshal data).1)

/-- The KV iteration of `GetGroupPeers` (part_000 lines 20-26). The iterator
over the `GROUP_PEERS` key range is modelled as the ascending list of peer
ids its keys decode to (`BytesU64`) together with a cursor position;
`resolve` models `s.GetPeer`. The loop body reads the key at the cursor and
appends the resolved peer but NEVER advances the cursor — exactly the
source's loop, which contains no `iter.Next()`. `fuel` bounds the number of
iterations; `none` means the bound was exhausted with the loop still
running. -/
def getGroupPeersLoop (resolve : Nat → Option Peer) (keys : List Nat) :
    Nat → Nat → List (Option Peer) → Option (List (Option Peer))
  | _, 0, _ => none
  | pos, fuel + 1, acc =>
    if pos < keys.length then
      getGroupPeersLoop resolve keys pos fuel (acc ++ [resolve (keys.getD pos 0)])
    else
      some acc

/-- Shallow embedding of `GetGroupPeers` (part_000 lines 13-29): a cache hit
returns the cached list; a miss runs the key-range iteration from the head
of the range. -/
def GetGroupPeers (cached : Option (List (Option Peer)))
    (resolve : Nat → Option Peer) (keys : List Nat) (fuel : Nat) :
    Option (List (Option Peer)) :=
  match cached with
  | some ps => some ps
  | none => getGroupPeersLoop resolve keys 0 fuel []

theorem denseLog_succ (t : Nat → Nat) (n : Nat) :
    denseLog t (n + 1) = denseLog t n ++ [⟨n + 1, t n⟩] := by
  simp [denseLog, List.range_succ]

theorem denseLog_length (t : Nat → Nat) (n : Nat) :
    (denseLog t n).length = n := by
  simp [denseLog]

/-- Closed form of the reversed-iterator loop on a dense log: the entries
kept are the last `n - (k - 1)` of the log (still in descending order), and
the final `prevEntry` is the incoming one for an empty log, else the entry
of index `min (max (k - 1) 1) n`. -/
theorem pucLoop_denseLog (t : Nat → Nat) (k : Nat) :
    ∀ (n : Nat) (prev : LogEntry),
      pucLoop k prev (denseLog t n).reverse =
        (((denseLog t n).drop (k - 1)).reverse,
         if n = 0 then prev
         else ⟨min (max (k - 1) 1) n, t (min (max (k - 1) 1) n - 1)⟩) := by
  intro n
  induction n with
  | zero => intro prev; simp [denseLog, pucLoop]
  | succ n ih =>
    intro prev
    rw [denseLog_succ, List.reverse_append]
    simp only [List.reverse_cons, List.reverse_nil, List.nil_append,
      List.cons_append, List.singleton_append]
    by_cases hk : n + 1 < k
    · rw [pucLoop]
      simp only [hk, if_true]
      have hlen : (denseLog t n ++ [(⟨n + 1, t n⟩ : LogEntry)]).length ≤ k - 1 := by
        simp [denseLog_length]; omega
      rw [List.drop_eq_nil_of_le hlen]
      have h1 : min (max (k - 1) 1) (n + 1) = n + 1 := by omega
      simp [h1]
    · rw [pucLoop]
      simp only [hk, if_false]
      rw [ih ⟨n + 1, t n⟩]
      have hdrop : (denseLog t n ++ [(⟨n + 1, t n⟩ : LogEntry)]).drop (k - 1) =
          (denseLog t n).drop (k - 1) ++ [(⟨n + 1, t n⟩ : LogEntry)] := by
        refine List.drop_append_of_le_length ?_
        rw [denseLog_length]; omega
      rw [hdrop, List.reverse_append]
      simp only [List.reverse_cons, List.reverse_nil, List.nil_append,
        List.singleton_append]
      by_cases hn : n = 0
      · subst hn
        have h1 : min (max (k - 1) 1) 1 = 1 := by omega
        simp [h1]
      · have h1 : min (max (k - 1) 1) n = min (max (k - 1) 1) (n + 1) := by omega
        simp only [hn, if_false, Nat.succ_ne_zero]
        rw [h1]

/-- On a dense log, dropping the first `k - 1` entries is exactly keeping
the entries of index at least `k`. -/
theorem denseLog_drop_eq_filter (t : Nat → Nat) (k : Nat) :
    ∀ n : Nat, (denseLog t n).drop (k - 1) =
      (denseLog t n).filter (fun e => decide (k ≤ e.index)) := by
  intro n
  induction n with
  | zero => simp [denseLog]
  | succ n ih =>
    rw [denseLog_succ, List.filter_append]
    by_cases hk : k ≤ n + 1
    · rw [List.drop_append_of_le_length (by rw [denseLog_length]; omega)]
      rw [ih]
      simp [hk]
    · have h1 : (denseLog t n ++ [(⟨n + 1, t n⟩ : LogEntry)]).drop (k - 1) = [] := by
        refine List.drop_eq_nil_of_le ?_
        simp [denseLog_length]; omega
      have h2 : (denseLog t n).drop (k - 1) = [] :=
        List.drop_eq_nil_of_le (by rw [denseLog_length]; omega)
      rw [h1, ← ih, h2]
      simp [hk]

/-- The hash-keyed response map returns a response bearing the looked-up
hash whenever some collected response bears it. -/
theorem foldl_responseFor_hash (hash : List Nat → Nat) (h : Nat) :
    ∀ (l : List (List Nat)) (acc : List Nat),
      (h ∈ l.map hash ∨ hash acc = h) →
      hash (l.foldl (fun a r => if hash r = h then r else a) acc) = h := by
  intro l
  induction l with
  | nil =>
    intro acc hm
    rcases hm with hmem | hacc
    · simp at hmem
    · simpa using hacc
  | cons r rest ih =>
    intro acc hm
    simp only [List.foldl_cons]
    by_cases hr : hash r = h
    · exact ih _ (Or.inr (by rw [if_pos hr, hr]))
    · rw [if_neg hr]
      apply ih
      rcases hm with hmem | hacc
      · rw [List.map_cons] at hmem
        rcases List.mem_cons.mp hmem with h1 | h2
        · exact absurd h1.symm hr
        · exact Or.inl h2
      · exact Or.inr hacc

theorem responseFor_hash (hash : List Nat → Nat) (collected : List (List Nat))
    (h : Nat) (hmem : h ∈ collected.map hash) :
    hash (responseFor hash collected h) = h :=
  foldl_responseFor_hash hash h collected [] (Or.inl hmem)

/-- The plurality fold never lowers the count of the front-runner. -/
theorem pickLoop_count_ge_start (l : List Nat) :
    ∀ (todo : List Nat) (best : Nat),
      l.count best ≤ l.count (pickLoop l todo best) := by
  intro todo
  induction todo with
  | nil => intro best; simp [pickLoop]
  | cons c rest ih =>
    intro best
    rw [pickLoop]
    by_cases hc : l.count best < l.count c
    · rw [if_pos hc]
      exact le_trans (le_of_lt hc) (ih c)
    · rw [if_neg hc]
      exact ih best

/-- Every candidate the plurality fold has seen counts no more than the
final pick. -/
theorem pickLoop_count_ge_mem (l : List Nat) :
    ∀ (todo : List Nat) (best y : Nat), y ∈ todo →
      l.count y ≤ l.count (pickLoop l todo best) := by
  intro todo
  induction todo with
  | nil => intro best y hy; simp at hy
  | cons c rest ih =>
    intro best y hy
    rw [pickLoop]
    rcases List.mem_cons.mp hy with h1 | hmem
    · rw [h1]
      by_cases hc : l.count best < l.count c
      · rw [if_pos hc]
        exact pickLoop_count_ge_start l rest c
      · rw [if_neg hc]
        exact le_trans (Nat.le_of_not_lt hc) (pickLoop_count_ge_start l rest best)
    · exact ih _ y hmem

/-- The plurality fold picks the front-runner or something it has seen. -/
theorem pickLoop_mem (l : List Nat) :
    ∀ (todo : List Nat) (best : Nat),
      pickLoop l todo best = best ∨ pickLoop l todo best ∈ todo := by
  intro todo
  induction todo with
  | nil => intro best; left; rfl
  | cons c rest ih =>
    intro best
    rw [pickLoop]
    by_cases hc : l.count best < l.count c
    · rw [if_pos hc]
      rcases ih c with h | h
      · right; rw [h]; exact List.mem_cons_self c rest
      · right; exact List.mem_cons_of_mem c h
    · rw [if_neg hc]
      rcases ih best with h | h
      · left; exact h
      · right; exact List.mem_cons_of_mem c h

theorem pickMajority_mem (xs : List Nat) (h : xs ≠ []) : PickMajority xs ∈ xs := by
  match xs with
  | [] => exact absurd rfl h
  | x :: rest =>
    rw [PickMajority]
    rcases pickLoop_mem (x :: rest) (x :: rest) x with h1 | h1
    · rw [h1]; exact List.mem_cons_self x rest
    · exact h1

theorem pickMajority_count (xs : List Nat) (y : Nat) (hy : y ∈ xs) :
    xs.count y ≤ xs.count (PickMajority xs) := by
  match xs with
  | [] => simp at hy
  | x :: rest =>
    rw [PickMajority]
    exact pickLoop_count_ge_mem (x :: rest) (x :: rest) x y hy

/-- Counting a value among the hashes of a list is filtering the list by
that hash value. -/
theorem length_filter_eq_count_map (hash : List Nat → Nat) (v : Nat) :
    ∀ l : List (List Nat),
      (l.filter (fun x => decide (hash x = v))).length = (l.map hash).count v := by
  intro l
  induction l with
  | nil => simp
  | cons a tl ih =>
    by_cases h : hash a = v
    · simp [List.filter_cons, List.count_cons, h, ih]
    · simp [List.filter_cons, List.count_cons, h, ih]

/-- What a successful quorum query certifies: the returned value came from a
polled client's response whose (nonempty) canonical bytes are shared by a
strict majority of the polled clients. -/
theorem majorityResponse_some {C V : Type} (clients : List C)
    (q : C → Option V × List Nat) (v : V)
    (h : MajorityResponse clients q = some v) :
    ∃ bs, bs ≠ [] ∧ (some v, bs) ∈ clients.map q ∧
      (clients.map q).length <
        2 * ((clients.map q).filter (fun r => decide (r.2 = bs))).length := by
  unfold MajorityResponse at h
  split at h
  case h_1 r heq =>
    have hmem := List.mem_of_find?_eq_some heq
    have hp := List.find?_some heq
    rw [Bool.and_eq_true, decide_eq_true_eq, decide_eq_true_eq] at hp
    refine ⟨r.2, hp.1, ?_, hp.2⟩
    have hr : r = (some v, r.2) := by
      rw [← h]
    rw [← hr]
    exact hmem
  case h_2 => exact Option.noConfusion h

/-- C1 (amended): on a finite log that is strictly ascending and dense from
index 1 (here `denseLog t n`, fully general for such logs), the entries
returned for `nextIndex = k` are exactly the suffix of entries with index at
least `k`, in ascending order; but the accompanying `prevEntry` is the
sentinel only when the log is EMPTY: on a nonempty log it is the entry of
index `min (max (k - 1) 1) n` — the entry of index `k - 1` when
`2 ≤ k ≤ n + 1`, the lowest-index entry when `k ≤ 1`, and the highest-index
entry when `k > n + 1`. -/
theorem peerUncommitted_denseLog_characterization (t : Nat → Nat) (n k : Nat) :
    PeerUncommittedLogEntries (denseLog t n) k =
      ((denseLog t n).filter (fun e => decide (k ≤ e.index)),
       if n = 0 then ⟨0, 0⟩
       else ⟨min (max (k - 1) 1) n, t (min (max (k - 1) 1) n - 1)⟩) := by
  unfold PeerUncommittedLogEntries
  rw [pucLoop_denseLog t k n ⟨0, 0⟩]
  rw [denseLog_drop_eq_filter]
  simp [List.reverse_reverse]

/-- C1 counterexample: for the one-entry log `[{index 1, term 1}]` and
`nextIndex = 0` the source returns every entry, but `prevEntry` is the
log's entry `{1, 1}`, not the sentinel `{0, 0}` the claim requires. -/
theorem peerUncommitted_k0_prev_not_sentinel :
    PeerUncommittedLogEntries [⟨1, 1⟩] 0 = ([⟨1, 1⟩], ⟨1, 1⟩) ∧
    (⟨1, 1⟩ : LogEntry) ≠ ⟨0, 0⟩ :=
  ⟨rfl, by decide⟩

/-- C4: the replication dispatcher's gating is inverted in the source. With
the peer's node known, when the client-pool lookup SUCCEEDS
(`clientGetFailed = false`) the function returns without issuing any RPC;
when the lookup FAILS it spawns the dispatch and issues `AppendEntries`
(built over the signed `appendLogEntrySignData` payload) — the exact
opposite of the claimed contract. Evaluated here at a concrete input. -/
theorem sendPeer_dispatch_inverted :
    SendPeerUncommittedLogEntries 9 id [⟨1, 1⟩] ⟨5, 2⟩ 1 (some ⟨3, "addr"⟩)
        false = none ∧
    SendPeerUncommittedLogEntries 9 id [⟨1, 1⟩] ⟨5, 2⟩ 1 (some ⟨3, "addr"⟩)
        true = some ⟨5, 2, 9, 1, 1, [5, 2, 1, 1], [], [⟨1, 1⟩]⟩ :=
  ⟨rfl, rfl⟩

/-- C5: with two polled alpha clients answering `true` (canonical byte 0x01)
and `false` (canonical byte 0x00), no strict majority exists, the quorum
query yields nil, and `GroupExists`'s unchecked type assertion
`res.(bool)` panics — modelled as the `none` outcome instead of a boolean. -/
theorem groupExists_quorum_failure_panics :
    GroupExists [0, 1]
      (fun c => if c = 0 then (some true, [1]) else (some false, [0])) = none := by
  decide

/-- The KV-range loop of `GetGroupPeers` never advances its iterator, so
from any cursor position still inside the range it exhausts every fuel
bound. -/
theorem getGroupPeersLoop_stuck (resolve : Nat → Option Peer) (keys : List Nat) :
    ∀ (fuel pos : Nat) (acc : List (Option Peer)), pos < keys.length →
      getGroupPeersLoop resolve keys pos fuel acc = none := by
  intro fuel
  induction fuel with
  | zero => intro pos acc _; rfl
  | succ fuel ih =>
    intro pos acc h
    rw [getGroupPeersLoop, if_pos h]
    exact ih pos _ h

/-- C6: on a cache miss over a nonempty `GROUP_PEERS` key range (here one
key, decoding to peer id 42) the iteration of `GetGroupPeers` never
terminates: the loop body lacks `iter.Next()`, so every fuel bound is
exhausted. -/
theorem getGroupPeers_nonempty_range_diverges (fuel : Nat) :
    GetGroupPeers none (fun _ => none) [42] fuel = none := by
  unfold GetGroupPeers
  exact getGroupPeersLoop_stuck _ [42] fuel 0 [] (by decide)

/-- C10: when the leader is resolved but `GetGroupHosts` comes back empty,
`ExecCommand` returns the `NoHosts` error — yet the trace shows the signed
command was already submitted to the leader (the goroutine is spawned
before the host lookup), so the error does not imply the command was not
executed. -/
theorem execCommand_noHosts_after_submission (hash : List Nat → Nat)
    (arrivals : List (List Nat)) :
    ExecCommand hash true none arrivals =
      (.error "cannot get group hosts", [ClientEvent.sentToLeader]) := rfl

/-- C2 counterexample: four hosts give `expectedPlayers 4 = 3`; the three
collected responses are `[1], [1], [2]`, so only two of them are hash-equal
to the returned bytes `[1]` — fewer than `expectedPlayers` — yet
`ExecCommand` returns a result. -/
theorem execCommand_result_below_expected_quorum :
    (ExecCommand sumHash true
        (some [⟨1, "a"⟩, ⟨2, "b"⟩, ⟨3, "c"⟩, ⟨4, "d"⟩]) [[1], [1], [2]]).1 =
      .ok [1] ∧
    (([[1], [1], [2]] : List (List Nat)).filter
        (fun r => decide (sumHash r = sumHash [1]))).length <
      ExpectedPlayers 4 :=
  ⟨rfl, by decide⟩

/-- C2 (amended): a result is returned only when `expectedPlayers(|hosts|)`
replica responses were collected within the window, and the returned bytes
then bear a PLURALITY hash among the collected responses — no other hash
value occurs more often — though possibly fewer than `expectedPlayers` of
the collected responses are hash-equal to it. -/
theorem execCommand_ok_plurality (hash : List Nat → Nat) (hosts : List Host)
    (arrivals : List (List Nat)) (res : List Nat)
    (h : (ExecCommand hash true (some hosts) arrivals).1 = .ok res) :
    ExpectedPlayers hosts.length ≤ arrivals.length ∧
    ∀ r ∈ arrivals.take (ExpectedPlayers hosts.length),
      ((arrivals.take (ExpectedPlayers hosts.length)).filter
          (fun x => decide (hash x = hash r))).length ≤
      ((arrivals.take (ExpectedPlayers hosts.length)).filter
          (fun x => decide (hash x = hash res))).length := by
  by_cases hlen : arrivals.length < ExpectedPlayers hosts.length
  · exfalso
    have he : (ExecCommand hash true (some hosts) arrivals).1 =
        .error "does not receive enough response" := by
      simp [ExecCommand, hlen]
    rw [he] at h
    exact Except.noConfusion h
  · have hok : (ExecCommand hash true (some hosts) arrivals).1 =
        .ok (responseFor hash (arrivals.take (ExpectedPlayers hosts.length))
          (PickMajority ((arrivals.take (ExpectedPlayers hosts.length)).map hash))) := by
      simp [ExecCommand, hlen]
    rw [hok] at h
    have hres : res = responseFor hash (arrivals.take (ExpectedPlayers hosts.length))
        (PickMajority ((arrivals.take (ExpectedPlayers hosts.length)).map hash)) := by
      injection h with h1
      exact h1.symm
    refine ⟨Nat.le_of_not_lt hlen, ?_⟩
    intro r hr
    have hne : arrivals.take (ExpectedPlayers hosts.length) ≠ [] := by
      have hlt : 0 < (arrivals.take (ExpectedPlayers hosts.length)).length := by
        rw [List.length_take]
        have : 0 < ExpectedPlayers hosts.length := Nat.succ_pos _
        omega
      exact List.ne_nil_of_length_pos hlt
    have hmne : (arrivals.take (ExpectedPlayers hosts.length)).map hash ≠ [] := by
      intro hcon
      exact hne (List.map_eq_nil_iff.mp hcon)
    have hpm : PickMajority ((arrivals.take (ExpectedPlayers hosts.length)).map hash)
        ∈ (arrivals.take (ExpectedPlayers hosts.length)).map hash :=
      pickMajority_mem _ hmne
    have hhres : hash res =
        PickMajority ((arrivals.take (ExpectedPlayers hosts.length)).map hash) := by
      rw [hres]
      exact responseFor_hash hash _ _ hpm
    rw [length_filter_eq_count_map, length_filter_eq_count_map, hhres]
    exact pickMajority_count _ (hash r) (List.mem_map_of_mem hash hr)

/-- Witness for the amended C2 theorem at a concrete input: one host, one
collected response `[7]`, result `[7]`. -/
theorem execCommand_ok_plurality_witness :
    ExpectedPlayers ([⟨1, "a"⟩] : List Host).length ≤
      ([[7]] : List (List Nat)).length ∧
    ∀ r ∈ ([[7]] : List (List Nat)).take
        (ExpectedPlayers ([⟨1, "a"⟩] : List Host).length),
      ((([[7]] : List (List Nat)).take
          (ExpectedPlayers ([⟨1, "a"⟩] : List Host).length)).filter
          (fun x => decide (sumHash x = sumHash r))).length ≤
      ((([[7]] : List (List Nat)).take
          (ExpectedPlayers ([⟨1, "a"⟩] : List Host).length)).filter
          (fun x => decide (sumHash x = sumHash [7]))).length :=
  execCommand_ok_plurality sumHash [⟨1, "a"⟩] [[7]] [7] rfl

/-- C8: with a leader resolved and a nonempty host list, when fewer than
`expectedPlayers(|hosts|)` replica results reach the request inbox within
the 10-second window (modelled by `arrivals`, the in-window deliveries),
`ExecCommand` returns the timeout error and no result bytes. -/
theorem execCommand_timeout_when_insufficient (hash : List Nat → Nat)
    (hosts : List Host) (arrivals : List (List Nat)) (hne : hosts ≠ [])
    (h : arrivals.length < ExpectedPlayers hosts.length) :
    (ExecCommand hash true (some hosts) arrivals).1 =
      .error "does not receive enough response" := by
  simp [ExecCommand, h]

/-- Witness for C8 at a concrete input: one host and no in-window
deliveries. -/
theorem execCommand_timeout_witness :
    (ExecCommand sumHash true (some [⟨1, "a"⟩]) []).1 =
      .error "does not receive enough response" :=
  execCommand_timeout_when_insufficient sumHash [⟨1, "a"⟩] [] (by decide)
    (by decide)

/-- C7 counterexample: with a present KV row whose deserialization FAILS
(the decoder reports failure and leaves the zero-initialized struct),
`GetPeer` does not return absent: it returns — and caches — the
zero-valued peer. -/
theorem getPeer_malformed_not_absent :
    GetPeer none (some [255]) (fun _ => (zeroPeer, false)) =
      (some zeroPeer, some zeroPeer) ∧
    (GetPeer none (some [255]) (fun _ => (zeroPeer, false))).1 ≠ none :=
  ⟨rfl, by decide⟩

/-- C7 (amended): on a cache miss, `GetPeer` returns absent exactly when
the KV row is absent; when the row is present it returns and caches the
struct the decoder left, regardless of whether deserialization succeeded —
a failed deserialization yields the (zero-valued) decoded struct, not
absent. -/
theorem getPeer_row_semantics (row : Option (List Nat))
    (unmarshal : List Nat → Peer × Bool) :
    ((GetPeer none row unmarshal).1 = none ↔ row = none) ∧
    ∀ d, row = some d →
      GetPeer none row unmarshal = (some (unmarshal d).1, some (unmarshal d).1) := by
  cases row with
  | none =>
    exact ⟨by simp [GetPeer], fun d hd => Option.noConfusion hd⟩
  | some data =>
    refine ⟨by simp [GetPeer], ?_⟩
    intro d hd
    injection hd with hdd
    rw [← hdd]
    rfl

/-- C3: for every group id `g`, each client cache either keeps its previous
entry, or (only at the queried group id) is populated with a value the
quorum query accepted — one produced together with nonempty canonical bytes
that a strict majority of the polled alpha clients matched byte-for-byte
(for the leader cache, the cached value is the RPC client opened to the
accepted leader host's address); and whenever the quorum query yields no
result, both caches are left unchanged everywhere. -/
theorem clientCaches_quorum_only (alphaClients : List Nat)
    (hostsQuery : Nat → Option (List Host) × List Nat)
    (leaderQuery : Nat → Option Host × List Nat)
    (connect : String → Option Nat)
    (cacheH : Nat → Option (List Host)) (cacheL : Nat → Option Nat)
    (gid g : Nat) :
    ((GetGroupHosts alphaClients hostsQuery cacheH gid).2 g = cacheH g ∨
      (g = gid ∧ ∃ hosts,
        MajorityResponse alphaClients hostsQuery = some hosts ∧
        (GetGroupHosts alphaClients hostsQuery cacheH gid).2 g = some hosts ∧
        ∃ bs, bs ≠ [] ∧ (some hosts, bs) ∈ alphaClients.map hostsQuery ∧
          (alphaClients.map hostsQuery).length <
            2 * ((alphaClients.map hostsQuery).filter
              (fun r => decide (r.2 = bs))).length)) ∧
    (MajorityResponse alphaClients hostsQuery = none →
      (GetGroupHosts alphaClients hostsQuery cacheH gid).2 g = cacheH g) ∧
    ((GetGroupLeader alphaClients leaderQuery connect cacheL gid).2 g = cacheL g ∨
      (g = gid ∧ ∃ ld, MajorityResponse alphaClients leaderQuery = some ld ∧
        (GetGroupLeader alphaClients leaderQuery connect cacheL gid).2 g =
          connect ld.serverAddr ∧
        ∃ bs, bs ≠ [] ∧ (some ld, bs) ∈ alphaClients.map leaderQuery ∧
          (alphaClients.map leaderQuery).length <
            2 * ((alphaClients.map leaderQuery).filter
              (fun r => decide (r.2 = bs))).length)) ∧
    (MajorityResponse alphaClients leaderQuery = none →
      (GetGroupLeader alphaClients leaderQuery connect cacheL gid).2 g = cacheL g) := by
  refine ⟨?_, ?_, ?_, ?_⟩
  · cases hc : cacheH gid with
    | some v => left; simp [GetGroupHosts, hc]
    | none =>
      cases hm : MajorityResponse alphaClients hostsQuery with
      | none => left; simp [GetGroupHosts, hc, hm]
      | some hosts =>
        by_cases hg : g = gid
        · right
          exact ⟨hg, hosts, rfl,
            by simp [GetGroupHosts, hc, hm, hg],
            majorityResponse_some alphaClients hostsQuery hosts hm⟩
        · left
          simp [GetGroupHosts, hc, hm, hg]
  · intro hm
    cases hc : cacheH gid with
    | some v => simp [GetGroupHosts, hc]
    | none => simp [GetGroupHosts, hc, hm]
  · cases hc : cacheL gid with
    | some v => left; simp [GetGroupLeader, hc]
    | none =>
      cases hm : MajorityResponse alphaClients leaderQuery with
      | none => left; simp [GetGroupLeader, hc, hm]
      | some ld =>
        cases hcon : connect ld.serverAddr with
        | none => left; simp [GetGroupLeader, hc, hm, hcon]
        | some leader =>
          by_cases hg : g = gid
          · right
            exact ⟨hg, ld, rfl,
              by simp [GetGroupLeader, hc, hm, hcon, hg],
              majorityResponse_some alphaClients leaderQuery ld hm⟩
          · left
            simp [GetGroupLeader, hc, hm, hcon, hg]
  · intro hm
    cases hc : cacheL gid with
    | some v => simp [GetGroupLeader, hc]
    | none => simp [GetGroupLeader, hc, hm]

/-- C9: `AlphaNodes` hands the quorum query exactly the clients built from
the bootstrap addresses whose connection succeeded (the connected subset),
so the strict-majority threshold is taken over that subset; a connected
client whose `GroupHosts` RPC fails contributes empty canonical bytes — an
abstention that can never join a winning tally — and a returned node list
is one a strict majority of the connected clients agreed on
byte-for-byte. -/
theorem alphaNodes_connected_majority (servers : List String)
    (connect : String → Option Nat) (rpc : Nat → Option (List Host)) :
    AlphaNodes servers connect rpc =
      MajorityResponse (servers.filterMap connect) (alphaQuery rpc) ∧
    (∀ c, rpc c = none → alphaQuery rpc c = (none, [])) ∧
    ∀ nodes, AlphaNodes servers connect rpc = some nodes →
      ∃ bs, bs ≠ [] ∧
        (some nodes, bs) ∈ (servers.filterMap connect).map (alphaQuery rpc) ∧
        ((servers.filterMap connect).map (alphaQuery rpc)).length <
          2 * (((servers.filterMap connect).map (alphaQuery rpc)).filter
            (fun r => decide (r.2 = bs))).length := by
  refine ⟨rfl, ?_, ?_⟩
  · intro c hc
    simp [alphaQuery, hc]
  · intro nodes h
    exact majorityResponse_some (servers.filterMap connect) (alphaQuery rpc) nodes h
